import Mathlib

/-!
Verification of the audio pipeline of the `chemic` microphone-testing tool
(`src/main.rs`): ring-buffer hand-off, sample-rate conversion by linear
interpolation, channel-layout conversion, and the buffer-size policy.

Samples (`f32` in the source) are embedded as exact rationals: every
arithmetic operation the pipeline performs (averaging two samples, linear
interpolation between two anchors) is stated over `ℚ`, abstracting the
floating-point rounding of `f32`.
-/

namespace Chemic

/-- A single audio sample (an `f32` amplitude in the source), embedded as ℚ. -/
abbrev Sample := ℚ

/-- `Sample::EQUILIBRIUM` for `f32`: the silence value `0.0`. -/
def Sample.EQUILIBRIUM : Sample := 0

/-! ## Ring buffer

Modelled from the spec: the `ringbuf` crate's `HeapRb`/`HeapProducer`/
`HeapConsumer` used in `start_streams` are an external dependency whose code
is not in the repository. The spec describes the contract: a bounded FIFO
queue of samples; `push` writes a slice best-effort, silently dropping the
excess when full and never blocking; `pop` never blocks and returns none
only when empty. The buffer is represented by its capacity together with
the queued samples, oldest first. -/
structure RingBuffer where
  capacity : ℕ
  data : List Sample
deriving DecidableEq, Repr

/-- Modelled from the spec: `HeapProducer::push_slice` appends as many
samples from the slice as fit in the remaining free space, dropping the
excess, and returns the count written. -/
def RingBuffer.pushSlice (rb : RingBuffer) (xs : List Sample) : RingBuffer × ℕ :=
  let free := rb.capacity - rb.data.length
  let written := min xs.length free
  ({ rb with data := rb.data ++ xs.take written }, written)

/-- Modelled from the spec: `HeapConsumer::pop` removes and returns the
oldest sample, or returns none when the buffer is empty. Never blocks. -/
def RingBuffer.pop (rb : RingBuffer) : Option Sample × RingBuffer :=
  match rb.data with
  | [] => (none, rb)
  | x :: rest => (some x, { rb with data := rest })

/-! ## ConsumerSignal (from `src/main.rs`, lines 281-292) -/

/-- The `Signal` wrapper around the ring-buffer consumer: `ConsumerSignal`. -/
structure ConsumerSignal where
  buf : RingBuffer
deriving DecidableEq, Repr

/-- `ConsumerSignal::next`: `self.0.pop().unwrap_or(Sample::EQUILIBRIUM)`,
returning the popped sample or silence when the buffer is empty, together
with the successor state. -/
def ConsumerSignal.next (s : ConsumerSignal) : Sample × ConsumerSignal :=
  let p := s.buf.pop
  (p.1.getD Sample.EQUILIBRIUM, ⟨p.2⟩)

/-! ## Buffer-size policy (from `src/main.rs`, lines 123-142) -/

/-- `cpal::BufferSize`, restricted to what `get_buffer_size` produces. -/
inductive BufferSize where
  | Default
  | Fixed (frames : ℕ)
deriving DecidableEq, Repr

/-- `cpal::SupportedBufferSize`: a reported `{ min, max }` range or unknown. -/
inductive SupportedBufferSize where
  | Range (mn mx : ℕ)
  | Unknown
deriving DecidableEq, Repr

/-- Largest value of a `u32`. -/
def U32_MAX : ℕ := 4294967295

/-- `u32::saturating_mul` on values already below `2^32`. -/
def saturating_mul_u32 (a b : ℕ) : ℕ := min (a * b) U32_MAX

/-- `DELAY_SECONDS`: the delay duration used by the delayed buffer policy. -/
def DELAY_SECONDS : ℕ := 2

/-- `get_buffer_size`: minimum supported size by default, about two seconds
of audio capped at the supported maximum in delayed mode, and the device
default when the supported range is unknown. -/
def get_buffer_size (supported : SupportedBufferSize) (sample_rate : ℕ)
    (is_delayed : Bool) : BufferSize :=
  match supported with
  | .Range mn mx =>
    if is_delayed then
      BufferSize.Fixed (min (saturating_mul_u32 sample_rate DELAY_SECONDS) mx)
    else
      BufferSize.Fixed mn
  | .Unknown => BufferSize.Default

/-! ## ChannelConverter (from `src/main.rs`, lines 170-204)

`ChannelConverter::next` uses its `SampleConverter` argument only through
the `Signal::next` method, so the embedding is parametric in the signal
state `σ` with explicit state passing for the `&mut` receiver. -/

/-- The channel-layout converter variants, with the `MonoToStereo` pending
sample. -/
inductive ChannelConverter where
  | Passthrough
  | StereoToMono
  | MonoToStereo (pending : Option Sample)
deriving DecidableEq, Repr

/-- `ChannelConverter::next`: passthrough forwards one pull; stereo-to-mono
pulls two and averages; mono-to-stereo takes the pending sample when
present, otherwise pulls one, stores it as pending and emits it. -/
def ChannelConverter.next {σ : Type} (nextS : σ → Sample × σ) :
    ChannelConverter → σ → Sample × ChannelConverter × σ
  | .Passthrough, s =>
    let p := nextS s
    (p.1, .Passthrough, p.2)
  | .StereoToMono, s =>
    let l := nextS s
    let r := nextS l.2
    ((l.1 + r.1) / 2, .StereoToMono, r.2)
  | .MonoToStereo pending, s =>
    match pending with
    | some v => (v, .MonoToStereo none, s)
    | none =>
      let p := nextS s
      (p.1, .MonoToStereo (some p.1), p.2)

/-- The channel-converter selection in `start_streams` (lines 227-232):
`(1, 2)` chooses mono-to-stereo, `(2, 1)` stereo-to-mono, everything else
passthrough. Channel counts are `u16` in the source, embedded as ℕ. -/
def select_channel_converter (input_channels output_channels : ℕ) :
    ChannelConverter :=
  match input_channels, output_channels with
  | 1, 2 => ChannelConverter.MonoToStereo none
  | 2, 1 => ChannelConverter.StereoToMono
  | _, _ => ChannelConverter.Passthrough

/-! ## Resampler

Modelled from the spec: the `dasp` crate's linear interpolator and
`Converter` (the `SampleConverter` of `start_streams`) are external
dependencies whose code is not in the repository. The spec describes the
algorithm: keep a fractional source-position accumulator advanced by
`rate_in / rate_out` per output pull; when it crosses an integer boundary,
pull from the source the required number of times, keeping the two most
recent samples as interpolation anchors; output `s0 + (s1 - s0) * frac`.
Before two anchors exist both anchors default to equilibrium, and the
accumulator starts at zero so the first outputs ramp from silence. -/

/-- The linear interpolator state: the two anchor samples. -/
structure Linear where
  left : Sample
  right : Sample
deriving DecidableEq, Repr

/-- Shifting in a newly pulled source sample: the old right anchor becomes
the left anchor and the new sample the right anchor. -/
def Linear.next_source_frame (i : Linear) (f : Sample) : Linear :=
  ⟨i.right, f⟩

/-- Linear interpolation between the anchors at fractional position `x`. -/
def Linear.interpolate (i : Linear) (x : ℚ) : Sample :=
  i.left + (i.right - i.left) * x

/-- The rate converter state over a source-signal state `σ`. -/
structure Converter (σ : Type) where
  source : σ
  interpolator : Linear
  interpolation_value : ℚ
  source_to_target : ℚ

/-- Floor of a nonnegative rational as a natural number: the number of
integer boundaries the accumulator has crossed, i.e. how many times the
advance loop `while iv >= 1 { pull; iv -= 1 }` runs. -/
def ratFloorNat (q : ℚ) : ℕ := (q.num / (q.den : ℤ)).toNat

/-- Pulling `k` source samples into the interpolator anchors. -/
def Converter.advance {σ : Type} (nextS : σ → Sample × σ) :
    ℕ → Converter σ → Converter σ
  | 0, c => c
  | k+1, c =>
    let p := nextS c.source
    Converter.advance nextS k
      { c with
        source := p.2
        interpolator := c.interpolator.next_source_frame p.1 }

/-- Modelled from the spec: one output pull of the rate converter. Advance
the source past every integer boundary the accumulator has crossed, emit
the interpolation of the anchors at the remaining fractional position, and
advance the accumulator by the source-to-target rate ratio. -/
def Converter.next {σ : Type} (nextS : σ → Sample × σ) (c : Converter σ) :
    Sample × Converter σ :=
  let k := ratFloorNat c.interpolation_value
  let c1 := Converter.advance nextS k c
  let iv := c.interpolation_value - (k : ℚ)
  (c1.interpolator.interpolate iv,
    { c1 with interpolation_value := iv + c.source_to_target })

/-- Modelled from the spec: `Converter::from_hz_to_hz` construction — the
given interpolator anchors, accumulator zero, ratio `source_hz/target_hz`. -/
def Converter.from_hz_to_hz {σ : Type} (source : σ) (interpolator : Linear)
    (source_hz target_hz : ℚ) : Converter σ :=
  { source := source
    interpolator := interpolator
    interpolation_value := 0
    source_to_target := source_hz / target_hz }

/-! ## `start_streams` pipeline construction (from `src/main.rs`, 206-232) -/

/-- The ring buffer created by `start_streams`:
`HeapRb::new(input_config.sample_rate.0 as usize * 2)`, initially empty. -/
def start_streams_ring (input_sample_rate : ℕ) : RingBuffer :=
  { capacity := input_sample_rate * 2, data := [] }

/-- The sample-rate converter built by `start_streams`:
`Converter::from_hz_to_hz(source, Linear::new(EQUILIBRIUM, EQUILIBRIUM),
rate_in, rate_out)` over the ring-buffer consumer signal. -/
def start_streams_converter (input_sample_rate output_sample_rate : ℚ)
    (rb : RingBuffer) : Converter ConsumerSignal :=
  Converter.from_hz_to_hz ⟨rb⟩ ⟨Sample.EQUILIBRIUM, Sample.EQUILIBRIUM⟩
    input_sample_rate output_sample_rate

/-! ## Execution helpers: repeated pulls with explicit state threading -/

/-- The first `n` samples a signal step function produces from state `s`. -/
def streamTake {σ : Type} (nextS : σ → Sample × σ) : ℕ → σ → List Sample
  | 0, _ => []
  | n+1, s =>
    let p := nextS s
    p.1 :: streamTake nextS n p.2

/-- The outputs of `n` successive `Converter::next` pulls. -/
def convRun {σ : Type} (nextS : σ → Sample × σ) :
    ℕ → Converter σ → List Sample
  | 0, _ => []
  | n+1, c =>
    let p := Converter.next nextS c
    p.1 :: convRun nextS n p.2

/-- The outputs of `n` successive `ChannelConverter::next` calls. -/
def ccRun {σ : Type} (nextS : σ → Sample × σ) :
    ℕ → ChannelConverter → σ → List Sample
  | 0, _, _ => []
  | n+1, cc, s =>
    let p := ChannelConverter.next nextS cc s
    p.1 :: ccRun nextS n p.2.1 p.2.2

/-- The converter and signal state after `n` `ChannelConverter::next`
calls. -/
def ccState {σ : Type} (nextS : σ → Sample × σ) :
    ℕ → ChannelConverter → σ → ChannelConverter × σ
  | 0, cc, s => (cc, s)
  | n+1, cc, s =>
    let p := ChannelConverter.next nextS cc s
    ccState nextS n p.2.1 p.2.2

/-- An arbitrary resampler-output oracle used to state the concrete
examples: a pull stream producing `vals 0, vals 1, ...` in order. -/
structure PullStream where
  vals : ℕ → Sample
  pos : ℕ

/-- One pull from the stream. -/
def PullStream.next (s : PullStream) : Sample × PullStream :=
  (s.vals s.pos, { s with pos := s.pos + 1 })

/-- Duplicating every element of a list into a consecutive pair. -/
def dupEach : List Sample → List Sample
  | [] => []
  | a :: rest => a :: a :: dupEach rest

/-- Averaging consecutive pairs of a list. -/
def pairMeans : List Sample → List Sample
  | a :: b :: rest => (a + b) / 2 :: pairMeans rest
  | _ => []

/-! ## Ring-buffer operation sequences (for the FIFO property) -/

/-- A producer push or a consumer pop. -/
inductive RbOp where
  | push (xs : List Sample)
  | pop
deriving Repr

/-- A ring buffer together with the history of an interleaved run: the
samples popped so far (in order) and the pushed samples that were accepted
(in push order, excess drops excluded). -/
structure RbTrace where
  buf : RingBuffer
  popped : List Sample
  kept : List Sample
deriving Repr

/-- One operation applied to a trace. -/
def rbStep (t : RbTrace) : RbOp → RbTrace
  | .push xs =>
    let p := t.buf.pushSlice xs
    { buf := p.1, popped := t.popped, kept := t.kept ++ xs.take p.2 }
  | .pop =>
    match t.buf.pop with
    | (none, rb) => { t with buf := rb }
    | (some v, rb) => { buf := rb, popped := t.popped ++ [v], kept := t.kept }

/-- Running a whole operation sequence from a given starting buffer. -/
def rbRun (rb : RingBuffer) (ops : List RbOp) : RbTrace :=
  ops.foldl rbStep { buf := rb, popped := [], kept := [] }

/-! ## Claim C5: buffer-size policy -/

/-- Claim C5: for every supported range and sample rate, `get_buffer_size`
returns `Fixed min` when delay mode is off, `Fixed (min (2 * sample_rate)
max)` when delay mode is on (for any `max` in `u32` range), and the device
default when the supported size is unknown; in particular range `[64,
4096]` at 48000 Hz gives 64 non-delayed and 4096 delayed. -/
theorem buffer_size_policy :
    (∀ (mn mx sample_rate : ℕ),
        get_buffer_size (.Range mn mx) sample_rate false = .Fixed mn
        ∧ (mx ≤ U32_MAX →
            get_buffer_size (.Range mn mx) sample_rate true
              = .Fixed (min (2 * sample_rate) mx)))
    ∧ (∀ (sample_rate : ℕ) (d : Bool),
        get_buffer_size .Unknown sample_rate d = .Default)
    ∧ get_buffer_size (.Range 64 4096) 48000 false = .Fixed 64
    ∧ get_buffer_size (.Range 64 4096) 48000 true = .Fixed 4096 := by
  refine ⟨fun mn mx sr => ⟨rfl, fun h => ?_⟩, fun sr d => rfl, rfl, by decide⟩
  have h' : mx ≤ 4294967295 := h
  simp only [get_buffer_size, saturating_mul_u32, DELAY_SECONDS, U32_MAX,
    if_true, BufferSize.Fixed.injEq]
  omega

/-- Witness for claim C5: the delayed branch of `buffer_size_policy`
instantiated at range `[64, 4096]`, 48000 Hz. -/
theorem buffer_size_policy_witness :
    (4096 : ℕ) ≤ U32_MAX
    ∧ get_buffer_size (.Range 64 4096) 48000 true
        = .Fixed (min (2 * 48000) 4096) :=
  ⟨by decide, (buffer_size_policy.1 64 4096 48000).2 (by decide)⟩

/-! ## Claim C10: delayed sizing saturates and is not raised to `min` -/

/-- Claim C10: in delayed mode the fixed size is computed with saturating
`u32` multiplication (so it never exceeds `u32::MAX` and never panics) and
is capped only at the supported maximum, never raised to the supported
minimum: whenever `2 * sample_rate < min`, the returned fixed size is below
the device's reported minimum. -/
theorem delayed_buffer_size_saturating :
    ∀ (mn mx sample_rate : ℕ),
      get_buffer_size (.Range mn mx) sample_rate true
          = .Fixed (min (min (sample_rate * 2) U32_MAX) mx)
      ∧ min (min (sample_rate * 2) U32_MAX) mx ≤ U32_MAX
      ∧ (2 * sample_rate < mn →
          min (min (sample_rate * 2) U32_MAX) mx < mn) := by
  intro mn mx sr
  refine ⟨rfl, le_trans (Nat.min_le_left _ _) (Nat.min_le_right _ _), fun h => ?_⟩
  have h1 : min (min (sr * 2) U32_MAX) mx ≤ sr * 2 :=
    le_trans (Nat.min_le_left _ _) (Nat.min_le_left _ _)
  omega

/-- Witness for claim C10: at range `[64, 4096]` and sample rate 10, the
delayed size 20 is below the reported minimum 64. -/
theorem delayed_buffer_size_saturating_witness :
    2 * 10 < 64 ∧ min (min (10 * 2) U32_MAX) 4096 < 64 :=
  ⟨by decide, (delayed_buffer_size_saturating 64 4096 10).2.2 (by decide)⟩

/-! ## Claim C9: every non-special channel pair is passthrough -/

/-- Claim C9: for every `(input_channels, output_channels)` pair other than
`(1, 2)` and `(2, 1)`, `start_streams` selects the passthrough converter,
including unequal pairs such as `(2, 6)` and `(1, 4)`. -/
theorem channel_converter_default_passthrough :
    (∀ (input_channels output_channels : ℕ),
        ¬(input_channels = 1 ∧ output_channels = 2) →
        ¬(input_channels = 2 ∧ output_channels = 1) →
        select_channel_converter input_channels output_channels
          = ChannelConverter.Passthrough)
    ∧ select_channel_converter 2 6 = ChannelConverter.Passthrough
    ∧ select_channel_converter 1 4 = ChannelConverter.Passthrough := by
  refine ⟨fun i o h12 h21 => ?_, rfl, rfl⟩
  unfold select_channel_converter
  split
  · exact absurd ⟨rfl, rfl⟩ h12
  · exact absurd ⟨rfl, rfl⟩ h21
  · rfl

/-- Witness for claim C9: the universal part applied at channels `(2, 6)`. -/
theorem channel_converter_default_passthrough_witness :
    ¬((2 : ℕ) = 1 ∧ (6 : ℕ) = 2) ∧ ¬((2 : ℕ) = 2 ∧ (6 : ℕ) = 1)
    ∧ select_channel_converter 2 6 = ChannelConverter.Passthrough :=
  ⟨by decide, by decide,
    channel_converter_default_passthrough.1 2 6 (by decide) (by decide)⟩

/-! ## Claim C6: the sample source is total and substitutes silence -/

/-- Claim C6: `ConsumerSignal::next` always succeeds, returning the popped
ring-buffer value when one is available and the equilibrium value `0.0`
when the buffer is empty; emptiness is never surfaced as an error. -/
theorem consumer_signal_next_total :
    ∀ rb : RingBuffer,
      (ConsumerSignal.next ⟨rb⟩).1
          = (match rb.data with
             | [] => Sample.EQUILIBRIUM
             | x :: _ => x)
      ∧ (rb.data = [] →
          (ConsumerSignal.next ⟨rb⟩).1 = Sample.EQUILIBRIUM)
      ∧ (∀ (x : Sample) (rest : List Sample), rb.data = x :: rest →
          (rb.pop).1 = some x ∧ (ConsumerSignal.next ⟨rb⟩).1 = x) := by
  rintro ⟨cap, data⟩
  cases data <;>
    simp [ConsumerSignal.next, RingBuffer.pop, Sample.EQUILIBRIUM]

/-- Witness for claim C6: the empty-buffer case at capacity 2 yields the
equilibrium sample. -/
theorem consumer_signal_next_total_witness :
    (RingBuffer.mk 2 []).data = []
    ∧ (ConsumerSignal.next ⟨RingBuffer.mk 2 []⟩).1 = Sample.EQUILIBRIUM :=
  ⟨rfl, (consumer_signal_next_total (RingBuffer.mk 2 [])).2.1 rfl⟩

/-! ## Claim C1: mono-to-stereo duplication -/

/-- Resampler-output oracle for the claim C1 example: 0.3, 0.7, silence. -/
def exValsC1 : ℕ → Sample := fun n =>
  if n = 0 then 3 / 10 else if n = 1 then 7 / 10 else 0

/-- Claim C1: from `pending = none`, every run of `ChannelConverter::next`
on the mono-to-stereo converter emits exactly the pulled resampler values
with each one duplicated into a consecutive pair, in order; outputs are
determined by the threaded state alone, so any grouping of the calls into
output-buffer fills concatenates to the same sequence; in particular
resampler output `[0.3, 0.7]` yields `[0.3, 0.3, 0.7, 0.7]`. -/
theorem monoToStereo_duplicates :
    (∀ (σ : Type) (nextS : σ → Sample × σ) (n : ℕ) (s : σ),
        ccRun nextS (2 * n) (ChannelConverter.MonoToStereo none) s
          = dupEach (streamTake nextS n s))
    ∧ (∀ (σ : Type) (nextS : σ → Sample × σ) (m n : ℕ)
        (cc : ChannelConverter) (s : σ),
        ccRun nextS (m + n) cc s
          = ccRun nextS m cc s
            ++ ccRun nextS n (ccState nextS m cc s).1 (ccState nextS m cc s).2)
    ∧ ccRun PullStream.next 4 (ChannelConverter.MonoToStereo none)
        ⟨exValsC1, 0⟩ = [3 / 10, 3 / 10, 7 / 10, 7 / 10] := by
  refine ⟨fun σ nextS n => ?_, fun σ nextS m => ?_, ?_⟩
  · induction n with
    | zero => intro s; rfl
    | succ n ih =>
      intro s
      rw [show 2 * (n + 1) = 2 * n + 1 + 1 by ring]
      simp only [ccRun, ChannelConverter.next, streamTake, dupEach, ih]
  · induction m with
    | zero => intro n cc s; simp [ccRun, ccState]
    | succ m ih =>
      intro n cc s
      rw [show m + 1 + n = m + n + 1 by omega]
      simp only [ccRun, ccState]
      rw [ih]
      simp
  · norm_num [ccRun, ChannelConverter.next, PullStream.next, exValsC1]

/-! ## Claim C2: stereo-to-mono averaging -/

/-- Resampler-output oracle for the claim C2 example:
1.0, -1.0, 0.5, 0.5, silence. -/
def exValsC2 : ℕ → Sample := fun n =>
  if n = 0 then 1 else if n = 1 then -1
  else if n = 2 then 1 / 2 else if n = 3 then 1 / 2 else 0

/-- Claim C2: every `ChannelConverter::next` call on the stereo-to-mono
converter pulls exactly two resampler values (left then right) and returns
their arithmetic mean, so `n` calls consume `2 * n` pulls and emit the
consecutive-pair means in order; in particular resampler output
`[1.0, -1.0, 0.5, 0.5]` yields `[0.0, 0.5]`. -/
theorem stereoToMono_averages :
    (∀ (σ : Type) (nextS : σ → Sample × σ) (n : ℕ) (s : σ),
        ccRun nextS n ChannelConverter.StereoToMono s
          = pairMeans (streamTake nextS (2 * n) s))
    ∧ ccRun PullStream.next 2 ChannelConverter.StereoToMono
        ⟨exValsC2, 0⟩ = [0, 1 / 2] := by
  refine ⟨fun σ nextS n => ?_, ?_⟩
  · induction n with
    | zero => intro s; rfl
    | succ n ih =>
      intro s
      rw [show 2 * (n + 1) = 2 * n + 1 + 1 by ring]
      simp only [ccRun, ChannelConverter.next, streamTake, pairMeans, ih]
  · norm_num [ccRun, ChannelConverter.next, PullStream.next, exValsC2]

/-! ## Claims C3 and C7: resampler identity case and anchor initialisation -/

/-- The accumulator floor of `0` is `0`: the advance loop does not run. -/
theorem ratFloorNat_zero : ratFloorNat 0 = 0 := by decide

/-- The accumulator floor of `1` is `1`: the advance loop runs once. -/
theorem ratFloorNat_one : ratFloorNat 1 = 1 := by decide

/-- Unfolding one output pull of `convRun`. -/
theorem convRun_succ {σ : Type} (nextS : σ → Sample × σ) (m : ℕ)
    (c : Converter σ) :
    convRun nextS (m + 1) c
      = (Converter.next nextS c).1
          :: convRun nextS m (Converter.next nextS c).2 := rfl

/-- In the steady state of the ratio-one converter (accumulator 1), each
pull shifts in exactly one source sample and emits the previous one. -/
theorem converter_identity_run {σ : Type} (nextS : σ → Sample × σ) :
    ∀ (n : ℕ) (s : σ) (l w : Sample),
      convRun nextS (n + 1) ⟨s, ⟨l, w⟩, 1, 1⟩ = w :: streamTake nextS n s := by
  intro n
  induction n with
  | zero =>
    intro s l w
    simp only [convRun, Converter.next, ratFloorNat_one, Converter.advance,
      Linear.next_source_frame, Linear.interpolate, streamTake, Nat.cast_one]
    norm_num
  | succ n ih =>
    intro s l w
    rw [convRun_succ]
    simp only [Converter.next, ratFloorNat_one, Converter.advance,
      Linear.next_source_frame, Linear.interpolate, streamTake, Nat.cast_one]
    norm_num [ih, streamTake]

/-- Claim C3: with equal input and output sample rates, the converter built
by `start_streams` over the ring-buffer signal reproduces each source
sample exactly once, unmodified and in order — after first emitting the two
equilibrium anchor values while the anchor window fills. -/
theorem resampler_identity (rate : ℚ) (h : rate ≠ 0) (rb : RingBuffer)
    (n : ℕ) :
    convRun ConsumerSignal.next (n + 2) (start_streams_converter rate rate rb)
      = Sample.EQUILIBRIUM :: Sample.EQUILIBRIUM ::
          streamTake ConsumerSignal.next n ⟨rb⟩ := by
  have hρ : rate / rate = 1 := div_self h
  rw [show n + 2 = n + 1 + 1 by omega, convRun_succ]
  simp only [start_streams_converter, Converter.from_hz_to_hz, hρ,
    Sample.EQUILIBRIUM, Converter.next, ratFloorNat_zero, Converter.advance,
    Linear.interpolate, Nat.cast_zero]
  norm_num [converter_identity_run]

/-- Witness for claim C3: a 48 kHz converter over the buffer holding
samples 5 and 9 outputs silence twice and then 5, 9. -/
theorem resampler_identity_witness :
    ((48000 : ℚ) ≠ 0)
    ∧ convRun ConsumerSignal.next (2 + 2)
        (start_streams_converter 48000 48000 ⟨4, [5, 9]⟩)
        = Sample.EQUILIBRIUM :: Sample.EQUILIBRIUM ::
            streamTake ConsumerSignal.next 2 ⟨⟨4, [5, 9]⟩⟩ :=
  ⟨by norm_num, resampler_identity 48000 (by norm_num) ⟨4, [5, 9]⟩ 2⟩

/-- Claim C7: the converter built by `start_streams` starts with both
interpolation anchors equal to the equilibrium value `0.0`, so its first
output interpolates from silence rather than stale state. -/
theorem converter_anchors_equilibrium :
    ∀ (rate_in rate_out : ℚ) (rb : RingBuffer),
      (start_streams_converter rate_in rate_out rb).interpolator.left
          = Sample.EQUILIBRIUM
      ∧ (start_streams_converter rate_in rate_out rb).interpolator.right
          = Sample.EQUILIBRIUM
      ∧ (Converter.next ConsumerSignal.next
            (start_streams_converter rate_in rate_out rb)).1
          = Sample.EQUILIBRIUM := by
  intro ri ro rb
  refine ⟨rfl, rfl, ?_⟩
  simp only [start_streams_converter, Converter.from_hz_to_hz,
    Sample.EQUILIBRIUM, Converter.next, ratFloorNat_zero, Converter.advance,
    Linear.interpolate, Nat.cast_zero]
  norm_num

/-! ## Claim C4: ring-buffer FIFO behaviour across interleaved runs -/

/-- The run invariant: capacity is constant, the samples popped so far
followed by the samples still buffered are exactly the accepted pushed
samples in push order, and occupancy never exceeds capacity. -/
def rbInv (cap : ℕ) (t : RbTrace) : Prop :=
  t.buf.capacity = cap
  ∧ t.popped ++ t.buf.data = t.kept
  ∧ t.buf.data.length ≤ cap

/-- Every single push or pop preserves the run invariant. -/
theorem rbStep_inv (cap : ℕ) (t : RbTrace) (op : RbOp) (h : rbInv cap t) :
    rbInv cap (rbStep t op) := by
  obtain ⟨hc, hk, hl⟩ := h
  cases op with
  | push xs =>
    refine ⟨hc, ?_, ?_⟩
    · simp only [rbStep, RingBuffer.pushSlice, ← hk, List.append_assoc]
    · simp only [rbStep, RingBuffer.pushSlice, List.length_append,
        List.length_take]
      omega
  | pop =>
    obtain ⟨⟨bcap, bdata⟩, pp, kk⟩ := t
    cases bdata with
    | nil => exact ⟨hc, hk, hl⟩
    | cons x rest =>
      simp only [rbStep, RingBuffer.pop]
      refine ⟨hc, ?_, ?_⟩
      · rw [List.append_assoc]
        simpa using hk
      · simp only [List.length_cons] at hl
        simpa using Nat.le_of_succ_le hl

/-- Claim C4: over every interleaved sequence of pushes and pops on the
ring buffer created by `start_streams`, the popped samples are exactly a
prefix (in order) of the accepted pushed samples — FIFO, and never a sample
that was not pushed — while occupancy stays within capacity; a push writes
exactly `min (length xs) free` samples, filling up to capacity and dropping
exactly the excess; and pop returns none exactly when the buffer is empty. -/
theorem ring_buffer_fifo :
    (∀ (input_sample_rate : ℕ) (ops : List RbOp),
        (rbRun (start_streams_ring input_sample_rate) ops).popped
            ++ (rbRun (start_streams_ring input_sample_rate) ops).buf.data
          = (rbRun (start_streams_ring input_sample_rate) ops).kept
        ∧ (rbRun (start_streams_ring input_sample_rate) ops).buf.data.length
            ≤ input_sample_rate * 2)
    ∧ (∀ (rb : RingBuffer) (xs : List Sample),
        rb.data.length ≤ rb.capacity →
        (rb.pushSlice xs).2 = min xs.length (rb.capacity - rb.data.length)
        ∧ (rb.pushSlice xs).1.data.length
            = min (rb.data.length + xs.length) rb.capacity)
    ∧ (∀ rb : RingBuffer, (rb.pop).1 = none ↔ rb.data = []) := by
  have run : ∀ (cap : ℕ) (ops : List RbOp) (t : RbTrace),
      rbInv cap t → rbInv cap (ops.foldl rbStep t) := by
    intro cap ops
    induction ops with
    | nil => intro t h; exact h
    | cons op ops ih => intro t h; exact ih _ (rbStep_inv cap t op h)
  refine ⟨fun rate ops => ?_, fun rb xs h => ?_, fun rb => ?_⟩
  · have h0 : rbInv (rate * 2)
        { buf := start_streams_ring rate, popped := [], kept := [] } :=
      ⟨rfl, rfl, Nat.zero_le _⟩
    obtain ⟨-, hk, hl⟩ := run (rate * 2) ops _ h0
    exact ⟨hk, hl⟩
  · refine ⟨rfl, ?_⟩
    simp only [RingBuffer.pushSlice, List.length_append, List.length_take]
    omega
  · obtain ⟨cap, data⟩ := rb
    cases data <;> simp [RingBuffer.pop]

/-- Witness for claim C4: pushing three samples into a capacity-3 buffer
already holding one sample writes two and drops one. -/
theorem ring_buffer_fifo_witness :
    (RingBuffer.mk 3 [1]).data.length ≤ (RingBuffer.mk 3 [1]).capacity
    ∧ ((RingBuffer.mk 3 [1]).pushSlice [2, 3, 4]).2
        = min ([2, 3, 4] : List Sample).length
            ((RingBuffer.mk 3 [1]).capacity - (RingBuffer.mk 3 [1]).data.length)
    ∧ ((RingBuffer.mk 3 [1]).pushSlice [2, 3, 4]).1.data.length
        = min ((RingBuffer.mk 3 [1]).data.length + ([2, 3, 4] : List Sample).length)
            (RingBuffer.mk 3 [1]).capacity :=
  ⟨by decide,
    (ring_buffer_fifo.2.1 (RingBuffer.mk 3 [1]) [2, 3, 4] (by decide)).1,
    (ring_buffer_fifo.2.1 (RingBuffer.mk 3 [1]) [2, 3, 4] (by decide)).2⟩

end Chemic
